import Mathlib

/-!
# Bit-field unpacking in `ext/rubybits.c`

A shallow embedding of the three unpacking functions of `ext/rubybits.c`
(`unsigned_unpack`, `signed_unpack`, `variable_unpack`) and of the reference
behaviour the specification describes for them.

Conventions of the embedding.

* A C `int` is a Lean `Int`; `/` and `%` on `int` are C's truncating operators,
  `Int.tdiv` and `Int.tmod`.  The running offset and the byte index grow by at
  most `length`, far below `2^31` for every buffer considered, so the additions
  are not wrapped.
* `char* s` is the list of the bytes that may be read through `s`, each byte
  given by its unsigned value `0..255`: the bytes of the buffer and whatever
  readable bytes follow it (for a string obtained with `StringValueCStr`, as in
  `from_string`, at least the terminating zero byte).  A read `s[byte]` outside
  that list has no defined value: the embedding returns `none`.  The tests of the source only
  look at bits `0..7` of `s[byte]`, which do not depend on whether `char` is
  signed.
* `1 << k` on `int` is defined for `0 ≤ k < 31` only; outside that range the
  embedding returns `none`.
* The source uses the identifier `bit` in `unsigned_unpack` and `signed_unpack`
  without declaring it.  The embedding takes its value as a parameter: `bit i`
  is the value of `bit` during iteration `i` of the loop (`bit i = i` when it
  is read as the loop counter, a constant when it is read as a variable of file
  scope).  `variable_unpack` declares `bit` as its loop counter.
* `signed_unpack` assigns `pos` without declaring it (it is a local here) and
  writes its conditional statement as `stmt if cond;`, read as
  `if (cond) stmt;`.
-/

namespace RubyBits

/-! ## C primitives -/

/-- The C expression `1 << k` on `int`: defined for `0 ≤ k < 31`. -/
def shl1 (k : Int) : Option Int :=
  if 0 ≤ k ∧ k < 31 then some (2 ^ k.toNat) else none

/-- The C read `s[byte]`: `none` outside the readable bytes. -/
def readByte (s : List Nat) (byte : Int) : Option Nat :=
  if byte < 0 then none else s[byte.toNat]?

/-- The C update `output[counter] |= mask` on a `char` array: `none` outside the array. -/
def orByte (output : List Nat) (counter : Int) (mask : Int) : Option (List Nat) :=
  if counter < 0 then none
  else
    match output[counter.toNat]? with
    | none => none
    | some old => some (output.set counter.toNat ((old ||| mask.toNat) % 256))

/-- The value of the C test `x & (m > 0)`, the way `x & m > 0` is parsed. -/
def andGtZero (x : Nat) (m : Int) : Nat :=
  x &&& (if 0 < m then 1 else 0)

/-! ## `unsigned_unpack` (source lines 3-20) -/

/-- The variables of `unsigned_unpack` that the loop changes. -/
structure UnsignedState where
  offset : Int
  byte : Int
  number : Int
  deriving DecidableEq

/-- The byte index before the loop: `byte = offset/8+1; if(offset%8==0)byte--;`. -/
def unsigned_unpack_start (offset : Int) : Int :=
  let byte := offset.tdiv 8 + 1
  if offset.tmod 8 = 0 then byte - 1 else byte

/-- One iteration of the loop of `unsigned_unpack` (source lines 11-17). -/
def unsigned_unpack_body (bit : Nat → Int) (s : List Nat) (length : Int) (i : Nat)
    (st : UnsignedState) : Option UnsignedState :=
  let byte := if st.offset.tmod 8 = 0 then st.byte + 1 else st.byte
  let src_bit := 7 - st.offset.tmod 8
  match readByte s byte, shl1 src_bit with
  | some x, some m =>
    if andGtZero x m ≠ 0 then
      match shl1 (length - 1 - bit i) with
      | some v => some { offset := st.offset + 1, byte := byte, number := Int.lor st.number v }
      | none => none
    else some { offset := st.offset + 1, byte := byte, number := st.number }
  | _, _ => none

/-- The loop of `unsigned_unpack`: `n` iterations starting at counter `i`. -/
def unsigned_unpack_loop (bit : Nat → Int) (s : List Nat) (length : Int) :
    Nat → Nat → UnsignedState → Option UnsignedState
  | 0, _, st => some st
  | n + 1, i, st =>
    match unsigned_unpack_body bit s length i st with
    | some st1 => unsigned_unpack_loop bit s length n (i + 1) st1
    | none => none

/-- The function `unsigned_unpack(s, offset, length)`. -/
def unsigned_unpack (bit : Nat → Int) (s : List Nat) (offset length : Int) : Option Int :=
  match unsigned_unpack_loop bit s length length.toNat 0
      { offset := offset, byte := unsigned_unpack_start offset, number := 0 } with
  | some st => some st.number
  | none => none

/-! ## `signed_unpack` (source lines 22-38) -/

/-- The variables of `signed_unpack` that the loop changes. -/
structure SignedState where
  offset : Int
  byte : Int
  number : Int
  deriving DecidableEq

/-- The byte index before the loop: `byte = offset/8+1` (no decrement here). -/
def signed_unpack_start (offset : Int) : Int :=
  offset.tdiv 8 + 1

/-- The flag `pos = s[byte] & (1 << 7 - offset % 8) == 0`, parsed by C as
`s[byte] & ((1 << (7 - offset % 8)) == 0)`. -/
def signed_unpack_pos (s : List Nat) (offset : Int) : Option Nat :=
  match readByte s (signed_unpack_start offset), shl1 (7 - offset.tmod 8) with
  | some x, some m => some (x &&& (if m = 0 then 1 else 0))
  | _, _ => none

/-- One iteration of the loop of `signed_unpack` (source lines 30-33); the
condition is `((s[byte] & (1 << src_bit)) > 0) ^ (!pos)`. -/
def signed_unpack_body (bit : Nat → Int) (s : List Nat) (length : Int) (pos : Nat) (i : Nat)
    (st : SignedState) : Option SignedState :=
  let byte := if st.offset.tmod 8 = 0 ∧ bit i > 7 then st.byte + 1 else st.byte
  let src_bit := (7 - st.offset).tmod 8
  match readByte s byte, shl1 src_bit with
  | some x, some m =>
    if xor (decide (0 < x &&& m.toNat)) (decide (pos = 0)) then
      match shl1 (length - 1 - bit i) with
      | some v => some { offset := st.offset + 1, byte := byte, number := Int.lor st.number v }
      | none => none
    else some { offset := st.offset + 1, byte := byte, number := st.number }
  | _, _ => none

/-- The loop of `signed_unpack`: `n` iterations starting at counter `i`. -/
def signed_unpack_loop (bit : Nat → Int) (s : List Nat) (length : Int) (pos : Nat) :
    Nat → Nat → SignedState → Option SignedState
  | 0, _, st => some st
  | n + 1, i, st =>
    match signed_unpack_body bit s length pos i st with
    | some st1 => signed_unpack_loop bit s length pos n (i + 1) st1
    | none => none

/-- The closing step of `signed_unpack`: `if(pos)return number; return -number-1;`. -/
def signed_unpack_return (pos : Nat) (number : Int) : Int :=
  if pos ≠ 0 then number else -number - 1

/-- The function `signed_unpack(s, offset, length)`. -/
def signed_unpack (bit : Nat → Int) (s : List Nat) (offset length : Int) : Option Int :=
  match signed_unpack_pos s offset with
  | none => none
  | some pos =>
    match signed_unpack_loop bit s length pos length.toNat 0
        { offset := offset, byte := signed_unpack_start offset, number := 0 } with
    | some st => some (signed_unpack_return pos st.number)
    | none => none

/-! ## `variable_unpack` (source lines 40-57) -/

/-- The variables of `variable_unpack` that the loop changes. -/
structure VariableState where
  offset : Int
  byte : Int
  counter : Int
  output : List Nat
  deriving DecidableEq

/-- The size passed to `calloc`: `byte_size = (length / 8)+1; if(offset%8 == 0)byte_size--;`. -/
def variable_unpack_byte_size (offset length : Int) : Int :=
  let byte_size := length.tdiv 8 + 1
  if offset.tmod 8 = 0 then byte_size - 1 else byte_size

/-- The byte index before the loop: `byte = offset/8+1; if(offset%8==0)byte--;`. -/
def variable_unpack_start (offset : Int) : Int :=
  let byte := offset.tdiv 8 + 1
  if offset.tmod 8 = 0 then byte - 1 else byte

/-- One iteration of the loop of `variable_unpack` (source lines 50-54), `bit`
being the loop counter. -/
def variable_unpack_body (s : List Nat) (bit : Nat) (st : VariableState) :
    Option VariableState :=
  let byte := if st.offset.tmod 8 = 0 then st.byte + 1 else st.byte
  let counter := if (bit : Int).tmod 8 = 0 then st.counter + 1 else st.counter
  let src_bit := 7 - st.offset.tmod 8
  match readByte s byte, shl1 src_bit with
  | some x, some m =>
    if andGtZero x m ≠ 0 then
      match shl1 (7 - (bit : Int).tmod 8) with
      | some mask =>
        match orByte st.output counter mask with
        | some out =>
          some { offset := st.offset + 1, byte := byte, counter := counter, output := out }
        | none => none
      | none => none
    else some { offset := st.offset + 1, byte := byte, counter := counter, output := st.output }
  | _, _ => none

/-- The loop of `variable_unpack`: `n` iterations starting at counter `bit`. -/
def variable_unpack_loop (s : List Nat) : Nat → Nat → VariableState → Option VariableState
  | 0, _, st => some st
  | n + 1, bit, st =>
    match variable_unpack_body s bit st with
    | some st1 => variable_unpack_loop s n (bit + 1) st1
    | none => none

/-- The function `variable_unpack(s, offset, length)`; `calloc` of a negative
size yields no buffer. -/
def variable_unpack (s : List Nat) (offset length : Int) : Option (List Nat) :=
  let byte_size := variable_unpack_byte_size offset length
  if byte_size < 0 then none
  else
    match variable_unpack_loop s length.toNat 0
        { offset := offset, byte := variable_unpack_start offset, counter := -1,
          output := List.replicate byte_size.toNat 0 } with
    | some st => some st.output
    | none => none

/-! ## Reference behaviour, following the specification -/

/-- The bit of buffer `b` at absolute offset `k` (specification, section 4.1):
`(b[k / 8] >> (7 - k % 8)) & 1`, `none` outside the buffer. -/
def bitAt (b : List Nat) (k : Nat) : Option Nat :=
  match b[k / 8]? with
  | some x => some ((x >>> (7 - k % 8)) &&& 1)
  | none => none

/-- The sum of `bit(o+i) * 2^(w-1-i)` over the first `n` bits `i` of the field,
`none` when one of them is outside the buffer. -/
def accumulate_msb (b : List Nat) (o w : Nat) : Nat → Option Nat
  | 0 => some 0
  | n + 1 =>
    match accumulate_msb b o w n, bitAt b (o + n) with
    | some acc, some v => some (acc + v * 2 ^ (w - 1 - n))
    | _, _ => none

/-- The reference value of `extract_unsigned` (specification, section 4.2): the
sum over `i < w` of `bit(o+i) * 2^(w-1-i)`. -/
def extract_unsigned_ref (b : List Nat) (o w : Nat) : Option Nat :=
  accumulate_msb b o w w

/-- The length of the buffer in bits. -/
def bitLength (b : List Nat) : Nat := 8 * b.length

/-- A request `(o, w)` is valid for buffer `b`: the field lies inside the buffer
and its width is positive and within the capacity of a non-negative `int`. -/
def validRequest (b : List Nat) (o w : Nat) : Prop :=
  1 ≤ w ∧ w ≤ 31 ∧ o + w ≤ bitLength b

instance (b : List Nat) (o w : Nat) : Decidable (validRequest b o w) := by
  unfold validRequest; infer_instance

/-- The undeclared identifier `bit` read as the loop counter `i`. -/
def loopCounter (i : Nat) : Int := i

/-- The buffer `b` with its bit at absolute offset `k` set to `v` (0 or 1),
bit 0 being the most significant bit of byte 0. -/
def writeBit (b : List Nat) (k v : Nat) : List Nat :=
  match b[k / 8]? with
  | some x =>
    b.set (k / 8) (if v = 0 then x &&& (255 - 2 ^ (7 - k % 8)) else x ||| 2 ^ (7 - k % 8))
  | none => b

/-- The buffer `b` with the first `n` bits of the field `[o, o+w)` overwritten,
most significant bit first, by the `w`-bit binary representation of `v`. -/
def pack_bits (b : List Nat) (o w v : Nat) : Nat → List Nat
  | 0 => b
  | n + 1 => writeBit (pack_bits b o w v n) (o + n) ((v >>> (w - 1 - n)) &&& 1)

/-- The reference packer of the specification's round trip: `b` with the bits
`[o, o+w)` overwritten, most significant bit first, by the `w`-bit binary
representation of `v`. -/
def pack_ref (b : List Nat) (o w v : Nat) : List Nat :=
  pack_bits b o w v w

/-- The reference value of `extract_signed` (specification, section 4.3): the
unsigned value `u` of the field when the sign bit is 0, `u - 2^w` when it is 1. -/
def extract_signed_ref (b : List Nat) (o w : Nat) : Option Int :=
  match bitAt b o, extract_unsigned_ref b o w with
  | some sign, some u => some (if sign = 0 then (u : Int) else (u : Int) - 2 ^ w)
  | _, _ => none

/-- The number of bytes that hold `w` bits: `ceil(w / 8)`. -/
def ceilDiv8 (w : Nat) : Nat := (w + 7) / 8

/-- The output `out` is the left-justified copy of the field `[o, o+w)` of `b`
(specification, section 4.4): bit `i` of `out` is bit `o + i` of `b`. -/
def leftJustifiedCopy (b out : List Nat) (o w : Nat) : Prop :=
  ∀ i, i < w → ∃ v, bitAt out i = some v ∧ bitAt b (o + i) = some v

/-- The unused low-order bits of output byte `ceil(w/8) - 1` are zero: the byte
exists and its bits `0 .. 7 - w % 8` are clear. -/
def paddingZero (out : List Nat) (w : Nat) : Prop :=
  ∃ x, out[ceilDiv8 w - 1]? = some x ∧ x % 2 ^ (8 - w % 8) = 0

/-! ## Names for the quantities of one iteration -/

/-- The state in which the loop of `unsigned_unpack` starts. -/
def unsigned_unpack_init (offset : Int) : UnsignedState :=
  { offset := offset, byte := unsigned_unpack_start offset, number := 0 }

/-- The index at which the iteration of `unsigned_unpack` that starts in state
`st` reads `s`: the value of `byte` after `if(offset % 8 == 0)byte++;`. -/
def unsigned_unpack_read_index (st : UnsignedState) : Int :=
  if st.offset.tmod 8 = 0 then st.byte + 1 else st.byte

/-- The value `src_bit = (7-offset%8)` of the iteration of `unsigned_unpack` that
starts in state `st`. -/
def unsigned_unpack_src_bit (st : UnsignedState) : Int :=
  7 - st.offset.tmod 8

/-- The state in which the loop of `variable_unpack` starts. -/
def variable_unpack_init (offset length : Int) : VariableState :=
  { offset := offset, byte := variable_unpack_start offset, counter := -1,
    output := List.replicate (variable_unpack_byte_size offset length).toNat 0 }

/-- The index at which the iteration of `variable_unpack` that starts in state
`st` reads `s`: the value of `byte` after `if(offset % 8 == 0)byte++;`. -/
def variable_unpack_read_index (st : VariableState) : Int :=
  if st.offset.tmod 8 = 0 then st.byte + 1 else st.byte

/-- The value `src_bit = (7-offset%8)` of the iteration of `variable_unpack` that
starts in state `st`. -/
def variable_unpack_src_bit (st : VariableState) : Int :=
  7 - st.offset.tmod 8

/-- The index of `output` that iteration `bit` of `variable_unpack`, started in
state `st`, writes: the value of `counter` after `if(bit % 8 == 0)counter++;`. -/
def variable_unpack_write_index (bit : Nat) (st : VariableState) : Int :=
  if (bit : Int).tmod 8 = 0 then st.counter + 1 else st.counter

/-- The mask `(1 << (7-bit%8))` that iteration `bit` of `variable_unpack` ors
into the output byte. -/
def variable_unpack_mask (bit : Nat) : Option Int :=
  shl1 (7 - (bit : Int).tmod 8)

/-- The intended bit test of the specification (section 4.1) on one byte:
`(x >> k) & 1`. -/
def bitOfByte (x k : Nat) : Nat :=
  (x >>> k) &&& 1

/-! ## Lemmas on the loops -/

/-- C division by 8 of a non-negative `int` is floor division. -/
theorem tdiv8 (a : Int) (h : 0 ≤ a) : a.tdiv 8 = a / 8 := Int.tdiv_eq_ediv h (by decide)

/-- C remainder by 8 of a non-negative `int` is the floor remainder. -/
theorem tmod8 (a : Int) (h : 0 ≤ a) : a.tmod 8 = a % 8 := Int.tmod_eq_emod h (by decide)

/-- Before the loop `byte` is `ceil(offset / 8)`. -/
theorem unsigned_unpack_start_eq (offset : Int) (h : 0 ≤ offset) :
    unsigned_unpack_start offset = (offset + 7) / 8 := by
  unfold unsigned_unpack_start
  simp only [tdiv8 offset h, tmod8 offset h]
  split <;> omega

/-- Before the loop of `variable_unpack`, `byte` is `ceil(offset / 8)`. -/
theorem variable_unpack_start_eq (offset : Int) (h : 0 ≤ offset) :
    variable_unpack_start offset = (offset + 7) / 8 := by
  unfold variable_unpack_start
  simp only [tdiv8 offset h, tmod8 offset h]
  split <;> omega

/-- A read that yields a value is inside the buffer. -/
theorem readByte_eq_some (s : List Nat) (byte : Int) (x : Nat) (h : readByte s byte = some x) :
    0 ≤ byte ∧ byte < s.length := by
  unfold readByte at h
  split at h
  · exact absurd h (by simp)
  · rename_i hb
    have := (List.getElem?_eq_some.mp h).1
    omega

/-- An iteration of `unsigned_unpack` that completes has read `s[offset/8 + 1]`
and leaves `byte = offset/8 + 1`. -/
theorem unsigned_unpack_body_some (bit : Nat → Int) (s : List Nat) (length : Int) (i : Nat)
    (st st1 : UnsignedState) (h0 : 0 ≤ st.offset)
    (hb : st.byte = (st.offset + 7) / 8)
    (h : unsigned_unpack_body bit s length i st = some st1) :
    st1.offset = st.offset + 1 ∧ st1.byte = st.offset / 8 + 1 ∧
      (∃ x, readByte s (st.offset / 8 + 1) = some x) := by
  unfold unsigned_unpack_body at h
  simp only [tmod8 st.offset h0] at h
  have hbyte : (if st.offset % 8 = 0 then st.byte + 1 else st.byte) = st.offset / 8 + 1 := by
    split <;> omega
  rw [hbyte] at h
  split at h
  · rename_i x m hx hm
    split at h
    · split at h
      · cases h; exact ⟨rfl, rfl, x, hx⟩
      · exact absurd h (by simp)
    · cases h; exact ⟨rfl, rfl, x, hx⟩
  · exact absurd h (by simp)

/-- The loop of `unsigned_unpack` has no result when the index `offset/8 + 1` of
its last iteration is outside the buffer. -/
theorem unsigned_unpack_loop_none (bit : Nat → Int) (s : List Nat) (length : Int) :
    ∀ (n i : Nat) (st : UnsignedState), 0 ≤ st.offset → st.byte = (st.offset + 7) / 8 →
      1 ≤ n → (s.length : Int) ≤ (st.offset + n - 1) / 8 + 1 →
      unsigned_unpack_loop bit s length n i st = none := by
  intro n
  induction n with
  | zero => intro i st _ _ h; omega
  | succ n ih =>
    intro i st h0 hb _ hlen
    unfold unsigned_unpack_loop
    cases hbody : unsigned_unpack_body bit s length i st with
    | none => rfl
    | some st1 =>
      obtain ⟨ho, hby, x, hx⟩ := unsigned_unpack_body_some bit s length i st st1 h0 hb hbody
      have hr := readByte_eq_some s _ x hx
      simp only
      by_cases hn : n = 0
      · subst hn
        simp at hlen
        omega
      · apply ih (i + 1) st1 (by omega) (by omega) (by omega)
        rw [ho]
        have : st.offset + 1 + (n : Int) - 1 = st.offset + ((n + 1 : Nat) : Int) - 1 := by
          push_cast; ring
        rw [this]; exact hlen

/-- C remainder by 8 of a non-positive `int`. -/
theorem tmod8_of_nonpos (a : Int) (h : a ≤ 0) : a.tmod 8 = -((-a) % 8) := by
  have h1 : a.tdiv 8 = -((-a) / 8) := by
    have h2 := Int.neg_tdiv (-a) 8
    rw [neg_neg] at h2
    rw [h2, tdiv8 (-a) (by omega)]
  rw [Int.tmod_def, h1]
  omega

/-- A defined shift has its amount in `0..30`. -/
theorem shl1_eq_some (k v : Int) (h : shl1 k = some v) : 0 ≤ k ∧ k < 31 ∧ v = 2 ^ k.toNat := by
  unfold shl1 at h
  split at h
  · cases h; omega
  · exact absurd h (by simp)

/-- An iteration of `signed_unpack` that completes has a non-negative `src_bit`. -/
theorem signed_unpack_body_some (bit : Nat → Int) (s : List Nat) (length : Int) (pos i : Nat)
    (st st1 : SignedState) (h : signed_unpack_body bit s length pos i st = some st1) :
    st1.offset = st.offset + 1 ∧ 0 ≤ (7 - st.offset).tmod 8 := by
  unfold signed_unpack_body at h
  dsimp only at h
  generalize (if st.offset.tmod 8 = 0 ∧ bit i > 7 then st.byte + 1 else st.byte) = byte at h
  cases hm : shl1 ((7 - st.offset).tmod 8) with
  | none => rw [hm] at h; cases hx : readByte s byte <;> rw [hx] at h <;> exact absurd h (by simp)
  | some m =>
    have hk := (shl1_eq_some _ _ hm).1
    cases hx : readByte s byte with
    | none => rw [hm, hx] at h; exact absurd h (by simp)
    | some x =>
      rw [hm, hx] at h
      dsimp only at h
      split at h
      · split at h
        · cases h; exact ⟨rfl, hk⟩
        · exact absurd h (by simp)
      · cases h; exact ⟨rfl, hk⟩

/-- The loop of `signed_unpack` has no result when one of its iterations computes
a negative `src_bit`. -/
theorem signed_unpack_loop_none (bit : Nat → Int) (s : List Nat) (length : Int) (pos : Nat) :
    ∀ (n i : Nat) (st : SignedState) (j : Nat), j < n →
      (7 - (st.offset + j)).tmod 8 < 0 →
      signed_unpack_loop bit s length pos n i st = none := by
  intro n
  induction n with
  | zero => intro i st j hj; omega
  | succ n ih =>
    intro i st j hj hbad
    unfold signed_unpack_loop
    cases hbody : signed_unpack_body bit s length pos i st with
    | none => rfl
    | some st1 =>
      obtain ⟨ho, hk⟩ := signed_unpack_body_some bit s length pos i st st1 hbody
      simp only
      cases j with
      | zero => simp at hbad; omega
      | succ j =>
        apply ih (i + 1) st1 j (by omega)
        rw [ho]
        have : st.offset + 1 + (j : Int) = st.offset + ((j + 1 : Nat) : Int) := by
          push_cast; ring
        rw [this]; exact hbad

/-- The function `signed_unpack` has no result when the field ends beyond the buffer. -/
theorem signed_unpack_none_of_out_of_range (bit : Nat → Int) (b : List Nat) (o w : Nat)
    (hr : 8 * b.length < o + w) : signed_unpack bit b o w = none := by
  unfold signed_unpack
  cases hpos : signed_unpack_pos b o with
  | none => rfl
  | some pos =>
    simp only
    unfold signed_unpack_pos at hpos
    split at hpos
    · rename_i x m hx hm
      have hb := readByte_eq_some b _ x hx
      unfold signed_unpack_start at hb
      rw [tdiv8 _ (by omega)] at hb
      have hw : 9 ≤ w := by omega
      have hnone : signed_unpack_loop bit b (w : Int) pos (w : Int).toNat 0
          { offset := (o : Int), byte := signed_unpack_start o, number := 0 } = none := by
        by_cases h7 : (o : Int) % 8 = 7
        · apply signed_unpack_loop_none bit b w pos _ 0 _ 7 (by simp; omega)
          simp only
          rw [tmod8_of_nonpos _ (by push_cast; omega)]
          push_cast; omega
        · apply signed_unpack_loop_none bit b w pos _ 0 _ 8 (by simp; omega)
          simp only
          rw [tmod8_of_nonpos _ (by push_cast; omega)]
          push_cast; omega
      rw [hnone]
    · exact absurd hpos (by simp)

/-- The function `unsigned_unpack` has no result as soon as the field reaches the
last byte of the buffer: it reads one byte further. -/
theorem unsigned_unpack_none_of_last_byte (bit : Nat → Int) (b : List Nat) (o w : Nat)
    (hw : 1 ≤ w) (hr : 8 * b.length ≤ o + w + 7) : unsigned_unpack bit b o w = none := by
  unfold unsigned_unpack
  rw [unsigned_unpack_loop_none bit b w (w : Int).toNat 0 _ (by simp)
    (by simp only; exact unsigned_unpack_start_eq _ (by simp)) (by simp; omega)
    (by simp only [Int.toNat_ofNat]; omega)]

/-- An iteration of `variable_unpack` that completes has read `s[offset/8 + 1]`
and leaves `byte = offset/8 + 1`. -/
theorem variable_unpack_body_some (s : List Nat) (bit : Nat) (st st1 : VariableState)
    (h0 : 0 ≤ st.offset) (hb : st.byte = (st.offset + 7) / 8)
    (h : variable_unpack_body s bit st = some st1) :
    st1.offset = st.offset + 1 ∧ st1.byte = st.offset / 8 + 1 ∧
      (∃ x, readByte s (st.offset / 8 + 1) = some x) := by
  unfold variable_unpack_body at h
  simp only [tmod8 st.offset h0] at h
  have hbyte : (if st.offset % 8 = 0 then st.byte + 1 else st.byte) = st.offset / 8 + 1 := by
    split <;> omega
  rw [hbyte] at h
  cases hx : readByte s (st.offset / 8 + 1) with
  | none => rw [hx] at h; exact absurd h (by simp)
  | some x =>
    cases hm : shl1 (7 - st.offset % 8) with
    | none => rw [hx, hm] at h; exact absurd h (by simp)
    | some m =>
      rw [hx, hm] at h
      dsimp only at h
      split at h
      · split at h
        · split at h
          · cases h; exact ⟨rfl, rfl, x, rfl⟩
          · exact absurd h (by simp)
        · exact absurd h (by simp)
      · cases h; exact ⟨rfl, rfl, x, rfl⟩

/-- The loop of `variable_unpack` has no result when the index `offset/8 + 1` of
its last iteration is outside the buffer. -/
theorem variable_unpack_loop_none (s : List Nat) :
    ∀ (n bit : Nat) (st : VariableState), 0 ≤ st.offset → st.byte = (st.offset + 7) / 8 →
      1 ≤ n → (s.length : Int) ≤ (st.offset + n - 1) / 8 + 1 →
      variable_unpack_loop s n bit st = none := by
  intro n
  induction n with
  | zero => intro i st _ _ h; omega
  | succ n ih =>
    intro i st h0 hb _ hlen
    unfold variable_unpack_loop
    cases hbody : variable_unpack_body s i st with
    | none => rfl
    | some st1 =>
      obtain ⟨ho, hby, x, hx⟩ := variable_unpack_body_some s i st st1 h0 hb hbody
      have hr := readByte_eq_some s _ x hx
      simp only
      by_cases hn : n = 0
      · subst hn
        simp at hlen
        omega
      · apply ih (i + 1) st1 (by omega) (by omega) (by omega)
        rw [ho]
        have : st.offset + 1 + (n : Int) - 1 = st.offset + ((n + 1 : Nat) : Int) - 1 := by
          push_cast; ring
        rw [this]; exact hlen

/-- The function `variable_unpack` has no result as soon as the field reaches the
last byte of the buffer: it reads one byte further. -/
theorem variable_unpack_none_of_last_byte (b : List Nat) (o w : Nat)
    (hw : 1 ≤ w) (hr : 8 * b.length ≤ o + w + 7) : variable_unpack b o w = none := by
  unfold variable_unpack
  dsimp only
  split
  · rfl
  · rw [variable_unpack_loop_none b (w : Int).toNat 0 _ (by simp)
      (by simp only; exact variable_unpack_start_eq _ (by simp))
      (by simp; omega) (by simp only [Int.toNat_ofNat]; omega)]

/-- The bitwise or of two non-negative `int` values below `2^w` is non-negative
and below `2^w`. -/
theorem int_lor_bound (a b : Int) (w : Nat) (ha : 0 ≤ a) (haw : a < 2 ^ w) (hb : 0 ≤ b)
    (hbw : b < 2 ^ w) : 0 ≤ Int.lor a b ∧ Int.lor a b < 2 ^ w := by
  obtain ⟨m, rfl⟩ := Int.eq_ofNat_of_zero_le ha
  obtain ⟨n, rfl⟩ := Int.eq_ofNat_of_zero_le hb
  have hm : m < 2 ^ w := by exact_mod_cast haw
  have hn : n < 2 ^ w := by exact_mod_cast hbw
  have h := Nat.or_lt_two_pow hm hn
  show 0 ≤ ((m ||| n : Nat) : Int) ∧ ((m ||| n : Nat) : Int) < 2 ^ w
  exact ⟨Int.ofNat_nonneg _, by exact_mod_cast h⟩

/-- The loop of `unsigned_unpack`, with `bit` read as the loop counter, keeps
`number` in `[0, 2^w)`. -/
theorem unsigned_unpack_loop_range (s : List Nat) (w : Nat) :
    ∀ (n i : Nat) (st st1 : UnsignedState), i + n ≤ w → 0 ≤ st.number → st.number < 2 ^ w →
      unsigned_unpack_loop loopCounter s w n i st = some st1 →
      0 ≤ st1.number ∧ st1.number < 2 ^ w := by
  intro n
  induction n with
  | zero =>
    intro i st st1 _ h0 h1 h
    unfold unsigned_unpack_loop at h
    cases h; exact ⟨h0, h1⟩
  | succ n ih =>
    intro i st st1 hi h0 h1 h
    unfold unsigned_unpack_loop at h
    cases hbody : unsigned_unpack_body loopCounter s w i st with
    | none => rw [hbody] at h; exact absurd h (by simp)
    | some st2 =>
      rw [hbody] at h
      dsimp only at h
      refine ih (i + 1) st2 st1 (by omega) ?_ ?_ h
      all_goals
        unfold unsigned_unpack_body at hbody
        dsimp only at hbody
        split at hbody
        · split at hbody
          · split at hbody
            · rename_i v hv
              cases hbody
              obtain ⟨hk0, hk1, rfl⟩ := shl1_eq_some _ _ hv
              have hlt : (w : Int) - 1 - loopCounter i < w := by unfold loopCounter; omega
              have hpow : ((2 : Int) ^ ((w : Int) - 1 - loopCounter i).toNat) < 2 ^ w := by
                apply pow_lt_pow_right₀ (by norm_num)
                omega
              have := int_lor_bound st.number _ w h0 h1 (by positivity) hpow
              first | exact this.1 | exact this.2
            · exact absurd hbody (by simp)
          · cases hbody; assumption
        · exact absurd hbody (by simp)

/-- Whenever `unsigned_unpack`, with `bit` read as the loop counter, has a value,
the value is in `[0, 2^w)`. -/
theorem unsigned_unpack_range (b : List Nat) (o : Int) (w : Nat) (v : Int)
    (h : unsigned_unpack loopCounter b o w = some v) : 0 ≤ v ∧ v < 2 ^ w := by
  unfold unsigned_unpack at h
  split at h
  · rename_i st hst
    cases h
    exact unsigned_unpack_loop_range b w _ 0 _ st (by simp) (by simp) (by positivity) hst
  · exact absurd h (by simp)

/-- A read inside the buffer yields a value. -/
theorem readByte_isSome (s : List Nat) (byte : Int) (h0 : 0 ≤ byte) (h1 : byte < s.length) :
    ∃ x, readByte s byte = some x := by
  unfold readByte
  rw [if_neg (by omega)]
  have hlt : byte.toNat < s.length := by omega
  exact ⟨s[byte.toNat], List.getElem?_eq_getElem hlt⟩

/-- A shift by an amount in `0..30` is defined. -/
theorem shl1_isSome (k : Int) (h0 : 0 ≤ k) (h1 : k < 31) : shl1 k = some (2 ^ k.toNat) := by
  unfold shl1
  rw [if_pos ⟨h0, h1⟩]

/-- An iteration of `unsigned_unpack` completes when `s[offset/8 + 1]` is inside
the buffer and the width is at most 31. -/
theorem unsigned_unpack_body_defined (s : List Nat) (w i : Nat) (st : UnsignedState)
    (h0 : 0 ≤ st.offset) (hb : st.byte = (st.offset + 7) / 8)
    (hlen : st.offset / 8 + 1 < s.length) (hi : i < w) (hw : w ≤ 31) :
    ∃ st1, unsigned_unpack_body loopCounter s w i st = some st1 := by
  obtain ⟨x, hx⟩ := readByte_isSome s (st.offset / 8 + 1) (by omega) hlen
  unfold unsigned_unpack_body
  simp only [tmod8 st.offset h0]
  have hbyte : (if st.offset % 8 = 0 then st.byte + 1 else st.byte) = st.offset / 8 + 1 := by
    split <;> omega
  rw [hbyte, hx, shl1_isSome (7 - st.offset % 8) (by omega) (by omega),
    shl1_isSome ((w : Int) - 1 - loopCounter i) (by unfold loopCounter; omega)
      (by unfold loopCounter; omega)]
  dsimp only
  split <;> exact ⟨_, rfl⟩

/-- The loop of `unsigned_unpack` completes when one byte beyond the field is
inside the buffer. -/
theorem unsigned_unpack_loop_defined (s : List Nat) (w : Nat) (hw : w ≤ 31) :
    ∀ (n i : Nat) (st : UnsignedState), 0 ≤ st.offset → st.byte = (st.offset + 7) / 8 →
      i + n ≤ w → st.offset + n + 8 ≤ 8 * s.length →
      ∃ st1, unsigned_unpack_loop loopCounter s w n i st = some st1 := by
  intro n
  induction n with
  | zero => intro i st _ _ _ _; exact ⟨st, rfl⟩
  | succ n ih =>
    intro i st h0 hb hi hlen
    obtain ⟨st2, h2⟩ := unsigned_unpack_body_defined s w i st h0 hb (by omega) (by omega) hw
    obtain ⟨ho, hby, -⟩ := unsigned_unpack_body_some loopCounter s w i st st2 h0 hb h2
    obtain ⟨st1, h1⟩ := ih (i + 1) st2 (by omega) (by omega) (by omega) (by push_cast at hlen; omega)
    refine ⟨st1, ?_⟩
    unfold unsigned_unpack_loop
    rw [h2]
    exact h1

/-- The function `unsigned_unpack`, with `bit` read as the loop counter, returns a
value in `[0, 2^w)` when one whole byte follows the field in the buffer. -/
theorem unsigned_unpack_defined (b : List Nat) (o w : Nat) (hw : w ≤ 31)
    (hr : o + w + 8 ≤ 8 * b.length) :
    ∃ v, unsigned_unpack loopCounter b o w = some v ∧ 0 ≤ v ∧ v < 2 ^ w := by
  obtain ⟨st1, h1⟩ := unsigned_unpack_loop_defined b w hw (w : Int).toNat 0
    { offset := (o : Int), byte := unsigned_unpack_start o, number := 0 } (by simp)
    (by simp only; exact unsigned_unpack_start_eq _ (by simp)) (by simp)
    (by simp only [Int.toNat_ofNat]; omega)
  have hv : unsigned_unpack loopCounter b o w = some st1.number := by
    unfold unsigned_unpack
    rw [h1]
  exact ⟨st1.number, hv, unsigned_unpack_range b o w _ hv⟩

/-- The iteration of `unsigned_unpack`, written with the named index and `src_bit`. -/
theorem unsigned_unpack_body_unfold (bit : Nat → Int) (s : List Nat) (length : Int) (i : Nat)
    (st : UnsignedState) :
    unsigned_unpack_body bit s length i st =
      match readByte s (unsigned_unpack_read_index st), shl1 (unsigned_unpack_src_bit st) with
      | some x, some m =>
        if andGtZero x m ≠ 0 then
          match shl1 (length - 1 - bit i) with
          | some v =>
            some { offset := st.offset + 1, byte := unsigned_unpack_read_index st,
                   number := Int.lor st.number v }
          | none => none
        else
          some { offset := st.offset + 1, byte := unsigned_unpack_read_index st,
                 number := st.number }
      | _, _ => none := rfl

/-- The iteration of `variable_unpack`, written with the named indices and mask. -/
theorem variable_unpack_body_unfold (s : List Nat) (bit : Nat) (st : VariableState) :
    variable_unpack_body s bit st =
      match readByte s (variable_unpack_read_index st), shl1 (variable_unpack_src_bit st) with
      | some x, some m =>
        if andGtZero x m ≠ 0 then
          match variable_unpack_mask bit with
          | some mask =>
            match orByte st.output (variable_unpack_write_index bit st) mask with
            | some out =>
              some { offset := st.offset + 1, byte := variable_unpack_read_index st,
                     counter := variable_unpack_write_index bit st, output := out }
            | none => none
          | none => none
        else
          some { offset := st.offset + 1, byte := variable_unpack_read_index st,
                 counter := variable_unpack_write_index bit st, output := st.output }
      | _, _ => none := rfl

/-- The function `unsigned_unpack` runs its loop from `unsigned_unpack_init`. -/
theorem unsigned_unpack_unfold (bit : Nat → Int) (s : List Nat) (offset length : Int) :
    unsigned_unpack bit s offset length =
      match unsigned_unpack_loop bit s length length.toNat 0 (unsigned_unpack_init offset) with
      | some st => some st.number
      | none => none := rfl

/-- The function `variable_unpack` runs its loop from `variable_unpack_init`. -/
theorem variable_unpack_unfold (s : List Nat) (offset length : Int) :
    variable_unpack s offset length =
      if variable_unpack_byte_size offset length < 0 then none
      else
        match variable_unpack_loop s length.toNat 0 (variable_unpack_init offset length) with
        | some st => some st.output
        | none => none := rfl

/-- One more iteration of the loop of `unsigned_unpack`. -/
theorem unsigned_unpack_loop_succ (bit : Nat → Int) (s : List Nat) (length : Int) (n i : Nat)
    (st : UnsignedState) :
    unsigned_unpack_loop bit s length (n + 1) i st =
      match unsigned_unpack_body bit s length i st with
      | some st1 => unsigned_unpack_loop bit s length n (i + 1) st1
      | none => none := rfl

/-- A run of `a + b` iterations of `unsigned_unpack` is a run of `a` iterations
followed by a run of `b` iterations: the state before iteration `a` is the
result of the first `a` iterations. -/
theorem unsigned_unpack_loop_split (bit : Nat → Int) (s : List Nat) (length : Int) :
    ∀ (a b i : Nat) (st : UnsignedState),
      unsigned_unpack_loop bit s length (a + b) i st =
        match unsigned_unpack_loop bit s length a i st with
        | some st1 => unsigned_unpack_loop bit s length b (i + a) st1
        | none => none := by
  intro a
  induction a with
  | zero => intro b i st; simp [unsigned_unpack_loop]
  | succ a ih =>
    intro b i st
    have hab : a + 1 + b = (a + b) + 1 := by omega
    rw [hab, unsigned_unpack_loop_succ, unsigned_unpack_loop_succ]
    cases unsigned_unpack_body bit s length i st with
    | none => rfl
    | some st2 =>
      simp only
      rw [ih b (i + 1) st2]
      have : i + 1 + a = i + (a + 1) := by omega
      rw [this]

/-- One more iteration of the loop of `variable_unpack`. -/
theorem variable_unpack_loop_succ (s : List Nat) (n bit : Nat) (st : VariableState) :
    variable_unpack_loop s (n + 1) bit st =
      match variable_unpack_body s bit st with
      | some st1 => variable_unpack_loop s n (bit + 1) st1
      | none => none := rfl

/-- A run of `a + b` iterations of `variable_unpack` is a run of `a` iterations
followed by a run of `b` iterations: the state before iteration `a` is the
result of the first `a` iterations. -/
theorem variable_unpack_loop_split (s : List Nat) :
    ∀ (a b bit : Nat) (st : VariableState),
      variable_unpack_loop s (a + b) bit st =
        match variable_unpack_loop s a bit st with
        | some st1 => variable_unpack_loop s b (bit + a) st1
        | none => none := by
  intro a
  induction a with
  | zero => intro b bit st; simp [variable_unpack_loop]
  | succ a ih =>
    intro b bit st
    have hab : a + 1 + b = (a + b) + 1 := by omega
    rw [hab, variable_unpack_loop_succ, variable_unpack_loop_succ]
    cases variable_unpack_body s bit st with
    | none => rfl
    | some st2 =>
      simp only
      rw [ih b (bit + 1) st2]
      have : bit + 1 + a = bit + (a + 1) := by omega
      rw [this]

/-- With `byte = ceil(offset/8)` on entry, an iteration of `unsigned_unpack` reads
`s[offset/8 + 1]` and has `src_bit = 7 - offset % 8`. -/
theorem unsigned_unpack_read_index_eq (st : UnsignedState) (h0 : 0 ≤ st.offset)
    (hb : st.byte = (st.offset + 7) / 8) :
    unsigned_unpack_read_index st = st.offset / 8 + 1 ∧
      unsigned_unpack_src_bit st = 7 - st.offset % 8 := by
  unfold unsigned_unpack_read_index unsigned_unpack_src_bit
  rw [tmod8 st.offset h0]
  constructor
  · split <;> omega
  · rfl

/-- After `n` iterations of `unsigned_unpack` the offset has grown by `n` and
`byte` is again `ceil(offset/8)`. -/
theorem unsigned_unpack_loop_state (bit : Nat → Int) (s : List Nat) (length : Int) :
    ∀ (n i : Nat) (st st1 : UnsignedState), 0 ≤ st.offset → st.byte = (st.offset + 7) / 8 →
      unsigned_unpack_loop bit s length n i st = some st1 →
      st1.offset = st.offset + n ∧ st1.byte = (st1.offset + 7) / 8 := by
  intro n
  induction n with
  | zero =>
    intro i st st1 _ hb h
    unfold unsigned_unpack_loop at h
    cases h
    exact ⟨by simp, hb⟩
  | succ n ih =>
    intro i st st1 h0 hb h
    unfold unsigned_unpack_loop at h
    cases hbody : unsigned_unpack_body bit s length i st with
    | none => rw [hbody] at h; exact absurd h (by simp)
    | some st2 =>
      rw [hbody] at h
      obtain ⟨ho, hby, -⟩ := unsigned_unpack_body_some bit s length i st st2 h0 hb hbody
      obtain ⟨h1, h2⟩ := ih (i + 1) st2 st1 (by omega) (by omega) h
      refine ⟨?_, h2⟩
      rw [h1, ho]
      push_cast
      ring

/-- Iteration `i` of `unsigned_unpack`, started at offset `o`, reads
`s[(o+i)/8 + 1]` with `src_bit = 7 - (o+i) % 8`. -/
theorem unsigned_unpack_read_index_at (bit : Nat → Int) (s : List Nat) (length : Int)
    (o i : Nat) (st : UnsignedState)
    (hrun : unsigned_unpack_loop bit s length i 0 (unsigned_unpack_init o) = some st) :
    unsigned_unpack_read_index st = ((o + i : Nat) : Int) / 8 + 1 ∧
      unsigned_unpack_src_bit st = 7 - ((o + i : Nat) : Int) % 8 := by
  obtain ⟨h1, h2⟩ := unsigned_unpack_loop_state bit s length i 0 (unsigned_unpack_init o) st
    (by simp [unsigned_unpack_init])
    (by simp only [unsigned_unpack_init]; exact unsigned_unpack_start_eq _ (by simp)) hrun
  have h3 : st.offset = ((o + i : Nat) : Int) := by
    rw [h1]; simp [unsigned_unpack_init]
  have := unsigned_unpack_read_index_eq st (by omega) h2
  rw [h3] at this
  exact this

/-- With `byte = ceil(offset/8)` on entry, an iteration of `variable_unpack` reads
`s[offset/8 + 1]` and has `src_bit = 7 - offset % 8`. -/
theorem variable_unpack_read_index_eq (st : VariableState) (h0 : 0 ≤ st.offset)
    (hb : st.byte = (st.offset + 7) / 8) :
    variable_unpack_read_index st = st.offset / 8 + 1 ∧
      variable_unpack_src_bit st = 7 - st.offset % 8 := by
  unfold variable_unpack_read_index variable_unpack_src_bit
  rw [tmod8 st.offset h0]
  constructor
  · split <;> omega
  · rfl

/-- An iteration of `variable_unpack` that completes leaves `counter` at the index
it targets. -/
theorem variable_unpack_body_counter (s : List Nat) (bit : Nat) (st st1 : VariableState)
    (h : variable_unpack_body s bit st = some st1) :
    st1.counter = variable_unpack_write_index bit st := by
  rw [variable_unpack_body_unfold] at h
  split at h
  · split at h
    · split at h
      · split at h
        · cases h; rfl
        · exact absurd h (by simp)
      · exact absurd h (by simp)
    · cases h; rfl
  · exact absurd h (by simp)

/-- With `counter = ceil(bit/8) - 1` on entry, iteration `bit` of `variable_unpack`
targets output byte `bit / 8`. -/
theorem variable_unpack_write_index_eq (bit : Nat) (st : VariableState)
    (hc : st.counter = ((bit : Int) + 7) / 8 - 1) :
    variable_unpack_write_index bit st = (bit : Int) / 8 := by
  unfold variable_unpack_write_index
  rw [tmod8 _ (by omega)]
  split <;> omega

/-- After `n` iterations of `variable_unpack` the offset has grown by `n`, `byte`
is `ceil(offset/8)` and `counter` is `ceil(bit/8) - 1` for the next `bit`. -/
theorem variable_unpack_loop_state (s : List Nat) :
    ∀ (n bit : Nat) (st st1 : VariableState), 0 ≤ st.offset → st.byte = (st.offset + 7) / 8 →
      st.counter = ((bit : Int) + 7) / 8 - 1 →
      variable_unpack_loop s n bit st = some st1 →
      st1.offset = st.offset + n ∧ st1.byte = (st1.offset + 7) / 8 ∧
        st1.counter = (((bit + n : Nat) : Int) + 7) / 8 - 1 := by
  intro n
  induction n with
  | zero =>
    intro i st st1 _ hb hc h
    unfold variable_unpack_loop at h
    cases h
    exact ⟨by simp, hb, by simpa using hc⟩
  | succ n ih =>
    intro i st st1 h0 hb hc h
    unfold variable_unpack_loop at h
    cases hbody : variable_unpack_body s i st with
    | none => rw [hbody] at h; exact absurd h (by simp)
    | some st2 =>
      rw [hbody] at h
      obtain ⟨ho, hby, -⟩ := variable_unpack_body_some s i st st2 h0 hb hbody
      have hcnt := variable_unpack_body_counter s i st st2 hbody
      rw [variable_unpack_write_index_eq i st hc] at hcnt
      obtain ⟨h1, h2, h3⟩ := ih (i + 1) st2 st1 (by omega) (by omega)
        (by push_cast; omega) h
      refine ⟨?_, h2, ?_⟩
      · rw [h1, ho]; push_cast; ring
      · rw [h3]
        have : i + 1 + n = i + (n + 1) := by ring
        rw [this]

/-- After `n` iterations of `variable_unpack`, `counter` is `ceil(bit/8) - 1` for
the next `bit`, whatever the offset. -/
theorem variable_unpack_loop_counter (s : List Nat) :
    ∀ (n bit : Nat) (st st1 : VariableState), st.counter = ((bit : Int) + 7) / 8 - 1 →
      variable_unpack_loop s n bit st = some st1 →
      st1.counter = (((bit + n : Nat) : Int) + 7) / 8 - 1 := by
  intro n
  induction n with
  | zero =>
    intro i st st1 hc h
    unfold variable_unpack_loop at h
    cases h
    simpa using hc
  | succ n ih =>
    intro i st st1 hc h
    unfold variable_unpack_loop at h
    cases hbody : variable_unpack_body s i st with
    | none => rw [hbody] at h; exact absurd h (by simp)
    | some st2 =>
      rw [hbody] at h
      have hcnt := variable_unpack_body_counter s i st st2 hbody
      rw [variable_unpack_write_index_eq i st hc] at hcnt
      have h3 := ih (i + 1) st2 st1 (by push_cast; omega) h
      rw [h3]
      have : i + 1 + n = i + (n + 1) := by ring
      rw [this]

/-- The flag `pos` of `signed_unpack` is 0 whenever it is defined. -/
theorem signed_unpack_pos_zero (s : List Nat) (o : Nat) (pos : Nat)
    (h : signed_unpack_pos s o = some pos) : pos = 0 := by
  unfold signed_unpack_pos at h
  rw [tmod8 _ (by omega), shl1_isSome _ (by omega) (by omega)] at h
  split at h
  · rename_i x m hx hm
    cases hm
    cases h
    have hne : ¬ ((2 : Int) ^ (7 - (o : Int) % 8).toNat = 0) := by positivity
    rw [if_neg hne]
    simp
  · exact absurd h (by simp)

/-- Iteration `i` of `variable_unpack`, started at offset `o`, reads
`s[(o+i)/8 + 1]` with `src_bit = 7 - (o+i) % 8`. -/
theorem variable_unpack_read_index_at (s : List Nat) (w : Int) (o i : Nat) (st : VariableState)
    (hrun : variable_unpack_loop s i 0 (variable_unpack_init o w) = some st) :
    variable_unpack_read_index st = ((o + i : Nat) : Int) / 8 + 1 ∧
      variable_unpack_src_bit st = 7 - ((o + i : Nat) : Int) % 8 := by
  obtain ⟨h1, h2, -⟩ := variable_unpack_loop_state s i 0 (variable_unpack_init o w) st
    (by simp [variable_unpack_init])
    (by simp only [variable_unpack_init]; exact variable_unpack_start_eq _ (by simp))
    (by simp [variable_unpack_init]) hrun
  have h3 : st.offset = ((o + i : Nat) : Int) := by
    rw [h1]; simp [variable_unpack_init]
  have := variable_unpack_read_index_eq st (by omega) h2
  rw [h3] at this
  exact this

/-- An update inside the array is defined and keeps the length of the array. -/
theorem orByte_defined (output : List Nat) (counter mask : Int) (h0 : 0 ≤ counter)
    (h1 : counter < output.length) :
    ∃ out, orByte output counter mask = some out ∧ out.length = output.length := by
  unfold orByte
  rw [if_neg (by omega)]
  have hlt : counter.toNat < output.length := by omega
  rw [List.getElem?_eq_getElem hlt]
  exact ⟨_, rfl, by simp⟩

/-- An iteration of `variable_unpack` completes, and keeps the length of the
output, when `s[offset/8 + 1]` is readable and output byte `bit / 8` exists. -/
theorem variable_unpack_body_defined (s : List Nat) (bit : Nat) (st : VariableState)
    (h0 : 0 ≤ st.offset) (hb : st.byte = (st.offset + 7) / 8)
    (hlen : st.offset / 8 + 1 < s.length)
    (hc : st.counter = ((bit : Int) + 7) / 8 - 1)
    (hout : (bit : Int) / 8 < st.output.length) :
    ∃ st1, variable_unpack_body s bit st = some st1 ∧
      st1.output.length = st.output.length := by
  obtain ⟨x, hx⟩ := readByte_isSome s (st.offset / 8 + 1) (by omega) hlen
  obtain ⟨hri, hsb⟩ := variable_unpack_read_index_eq st h0 hb
  have hwi := variable_unpack_write_index_eq bit st hc
  obtain ⟨out, hor, holen⟩ := orByte_defined st.output ((bit : Int) / 8)
    (2 ^ (7 - (bit : Int) % 8).toNat) (by omega) hout
  rw [variable_unpack_body_unfold, hri, hsb, hwi, hx,
    shl1_isSome (7 - st.offset % 8) (by omega) (by omega)]
  unfold variable_unpack_mask
  rw [tmod8 _ (by omega), shl1_isSome (7 - (bit : Int) % 8) (by omega) (by omega)]
  dsimp only
  split
  · rw [hor]
    exact ⟨_, rfl, holen⟩
  · exact ⟨_, rfl, rfl⟩

/-- The loop of `variable_unpack` completes when one byte beyond the field is
readable and the output holds `ceil((bit + n) / 8)` bytes. -/
theorem variable_unpack_loop_defined (s : List Nat) :
    ∀ (n bit : Nat) (st : VariableState), 0 ≤ st.offset → st.byte = (st.offset + 7) / 8 →
      st.counter = ((bit : Int) + 7) / 8 - 1 →
      st.offset + n + 8 ≤ 8 * s.length →
      (((bit + n : Nat) : Int) + 7) / 8 ≤ st.output.length →
      ∃ st1, variable_unpack_loop s n bit st = some st1 ∧
        st1.output.length = st.output.length := by
  intro n
  induction n with
  | zero => intro bit st _ _ _ _ _; exact ⟨st, rfl, rfl⟩
  | succ n ih =>
    intro bit st h0 hb hc hlen hout
    push_cast at hlen hout
    obtain ⟨st2, h2, hl2⟩ := variable_unpack_body_defined s bit st h0 hb (by omega) hc (by omega)
    obtain ⟨ho, hby, -⟩ := variable_unpack_body_some s bit st st2 h0 hb h2
    have hcnt := variable_unpack_body_counter s bit st st2 h2
    rw [variable_unpack_write_index_eq bit st hc] at hcnt
    obtain ⟨st1, h1, hl1⟩ := ih (bit + 1) st2 (by omega) (by omega) (by push_cast; omega)
      (by omega) (by rw [hl2]; push_cast; omega)
    refine ⟨st1, ?_, by rw [hl1, hl2]⟩
    rw [variable_unpack_loop_succ, h2]
    exact h1

/-- The function `variable_unpack` returns a buffer of `byte_size` bytes when one
byte beyond the field is readable and `byte_size` is at least `ceil(w / 8)`. -/
theorem variable_unpack_defined (s : List Nat) (o w : Nat) (hw : 1 ≤ w)
    (halign : o % 8 ≠ 0 ∨ w % 8 = 0) (hr : o + w + 8 ≤ 8 * s.length) :
    ∃ out, variable_unpack s o w = some out ∧
      (out.length : Int) = variable_unpack_byte_size o w := by
  have hsize : variable_unpack_byte_size o w
      = if (o : Int) % 8 = 0 then (w : Int) / 8 + 1 - 1 else (w : Int) / 8 + 1 := by
    unfold variable_unpack_byte_size
    simp only [tdiv8 (w : Int) (by omega), tmod8 (o : Int) (by omega)]
  have hnn : 0 ≤ variable_unpack_byte_size o w := by
    rw [hsize]; split <;> omega
  have hceil : ((w : Int) + 7) / 8 ≤ variable_unpack_byte_size o w := by
    rw [hsize]; split <;> omega
  obtain ⟨st1, h1, hl1⟩ := variable_unpack_loop_defined s (w : Int).toNat 0
    (variable_unpack_init o w) (by simp [variable_unpack_init])
    (by simp only [variable_unpack_init]; exact variable_unpack_start_eq _ (by simp))
    (by simp [variable_unpack_init])
    (by simp only [variable_unpack_init, Int.toNat_ofNat]; omega)
    (by simp only [variable_unpack_init, Int.toNat_ofNat, List.length_replicate]; omega)
  refine ⟨st1.output, ?_, ?_⟩
  · rw [variable_unpack_unfold, if_neg (by omega), h1]
  · rw [hl1]
    simp only [variable_unpack_init, List.length_replicate]
    omega

/-! ## The claims of the specification, checked on the code -/

/-- C1 (the code departs from the claim): `unsigned_unpack` does not return the
most-significant-first accumulation of the bits of the field.  On `[0xFF]`,
offset 0, width 8 it reads `s[1]`, outside the buffer, and has no value; with
one more readable byte, `[0xFF, 0x00]`, it returns 0 where the accumulation is
255, and on `[0xB0, 0x00]`, offset 0, width 4 it returns 0 where it is 11.
This holds whatever the undeclared `bit` is. -/
theorem unsigned_unpack_misses_msb_accumulation (bit : Nat → Int) :
    (validRequest [0xFF] 0 8 ∧ extract_unsigned_ref [0xFF] 0 8 = some 255 ∧
      unsigned_unpack bit [0xFF] 0 8 = none) ∧
    (validRequest [0xFF, 0x00] 0 8 ∧ extract_unsigned_ref [0xFF, 0x00] 0 8 = some 255 ∧
      unsigned_unpack bit [0xFF, 0x00] 0 8 = some 0) ∧
    (validRequest [0xB0, 0x00] 0 4 ∧ extract_unsigned_ref [0xB0, 0x00] 0 4 = some 11 ∧
      unsigned_unpack bit [0xB0, 0x00] 0 4 = some 0) :=
  ⟨⟨by decide, by decide, rfl⟩, ⟨by decide, by decide, rfl⟩, ⟨by decide, by decide, rfl⟩⟩

/-- C2 (the code departs from the claim): the round trip fails.  The reference
packer writes `v = 255` into bits `[0, 8)` of `[0x00, 0x00]`, which gives
`[0xFF, 0x00]`, and `unsigned_unpack` returns 0 on it, not 255, whatever the
undeclared `bit` is. -/
theorem unsigned_unpack_round_trip_broken (bit : Nat → Int) :
    validRequest [0x00, 0x00] 0 8 ∧ 255 < 2 ^ 8 ∧
    pack_ref [0x00, 0x00] 0 8 255 = [0xFF, 0x00] ∧
    extract_unsigned_ref (pack_ref [0x00, 0x00] 0 8 255) 0 8 = some 255 ∧
    unsigned_unpack bit (pack_ref [0x00, 0x00] 0 8 255) 0 8 = some 0 :=
  ⟨by decide, by decide, by decide, by decide, rfl⟩

/-- C3 (the code departs from the claim): with the sign bit set,
`signed_unpack` does not return `u - 2^w`.  On `[0x80, 0x00]`, offset 0,
width 8 the sign bit is 1 and `u - 2^8 = -128`, but the code (with `bit` read
as the loop counter) returns -256; on the one-byte buffers `[0xFF]` and
`[0x80]` it reads `s[1]`, outside the buffer, and has no value. -/
theorem signed_unpack_negative_field_wrong (bit : Nat → Int) :
    (validRequest [0x80, 0x00] 0 8 ∧ bitAt [0x80, 0x00] 0 = some 1 ∧
      extract_signed_ref [0x80, 0x00] 0 8 = some (-128) ∧
      signed_unpack loopCounter [0x80, 0x00] 0 8 = some (-256)) ∧
    (extract_signed_ref [0xFF] 0 8 = some (-1) ∧ signed_unpack bit [0xFF] 0 8 = none) ∧
    (extract_signed_ref [0x80] 0 8 = some (-128) ∧ signed_unpack bit [0x80] 0 8 = none) :=
  ⟨⟨by decide, by decide, by decide, by decide⟩, ⟨by decide, rfl⟩, ⟨by decide, rfl⟩⟩

/-- C4 (the code departs from the claim): with the sign bit clear,
`signed_unpack` differs from `unsigned_unpack`.  On `[0x00, 0x00]`, offset 0,
width 8 the sign bit is 0, `unsigned_unpack` returns 0 and `signed_unpack`
(with `bit` read as the loop counter) returns -256. -/
theorem signed_unpack_differs_from_unsigned_on_clear_sign :
    validRequest [0x00, 0x00] 0 8 ∧ bitAt [0x00, 0x00] 0 = some 0 ∧
    unsigned_unpack loopCounter [0x00, 0x00] 0 8 = some 0 ∧
    signed_unpack loopCounter [0x00, 0x00] 0 8 = some (-256) ∧
    signed_unpack_pos [0x00, 0x00] 0 = some 0 := by
  decide

/-- C5 (the code departs from the claim): the output of `variable_unpack` is not
the left-justified copy of the field.  On `[0xB0, 0x01]`, offset 3, width 4 the
field is `1000` and the code returns `[0xF0]`; on the witness `[0xB0]`,
offset 0, width 4 it reads `s[1]`, outside the buffer, and has no value. -/
theorem variable_unpack_not_left_justified_copy :
    3 + 4 ≤ bitLength [0xB0, 0x01] ∧
    variable_unpack [0xB0, 0x01] 3 4 = some [0xF0] ∧
    ¬ leftJustifiedCopy [0xB0, 0x01] [0xF0] 3 4 ∧
    variable_unpack [0xB0] 0 4 = none := by
  refine ⟨by decide, by decide, ?_, by decide⟩
  intro h
  obtain ⟨v, h1, h2⟩ := h 1 (by decide)
  simp [bitAt] at h1 h2
  omega

/-- C6 (the code departs from the claim): the size passed to `calloc` is not
`ceil(w / 8)` and depends on the offset.  For width 4 it is 0 at offset 0
(`ceil` is 1); for width 8 it is 2 at offset 3 and 1 at offset 0 (`ceil` is 1);
the buffers returned have these lengths. -/
theorem variable_unpack_size_not_ceil :
    (variable_unpack_byte_size 0 4 = 0 ∧ ceilDiv8 4 = 1 ∧
      variable_unpack [0xB0, 0x00] 0 4 = some []) ∧
    (variable_unpack_byte_size 3 8 = 2 ∧ variable_unpack_byte_size 0 8 = 1 ∧ ceilDiv8 8 = 1 ∧
      variable_unpack [0x00, 0x00, 0x00] 3 8 = some [0x00, 0x00]) := by
  decide

/-- C7: for every buffer `b` and every valid request `(o, w)`, with `bit` read
as the loop counter, every value that `unsigned_unpack` returns lies in
`[0, 2^w - 1]`, whatever bytes are readable through `s`; and it does return
such a value when the bytes of `b` are followed by one readable byte `t` (the
terminator that `StringValueCStr` guarantees in `from_string`). -/
theorem unsigned_unpack_in_range (b : List Nat) (t : Nat) (o w : Nat)
    (hv : validRequest b o w) :
    (∃ v, unsigned_unpack loopCounter (b ++ [t]) o w = some v ∧ 0 ≤ v ∧ v ≤ 2 ^ w - 1) ∧
    (∀ (s : List Nat) (v : Int), unsigned_unpack loopCounter s o w = some v →
      0 ≤ v ∧ v ≤ 2 ^ w - 1) := by
  obtain ⟨-, hcap, hr⟩ := hv
  unfold bitLength at hr
  constructor
  · obtain ⟨v, hv1, hv2, hv3⟩ := unsigned_unpack_defined (b ++ [t]) o w hcap
      (by simp only [List.length_append, List.length_singleton]; omega)
    exact ⟨v, hv1, hv2, by omega⟩
  · intro s v h
    have := unsigned_unpack_range s o w v h
    exact ⟨this.1, by omega⟩

/-- C7 at the valid request `[0xFF]`, offset 0, width 8, the buffer being followed
by the terminator 0. -/
theorem unsigned_unpack_in_range_witness :
    validRequest [0xFF] 0 8 ∧
    ((∃ v, unsigned_unpack loopCounter ([0xFF] ++ [0x00]) (0 : Nat) (8 : Nat) = some v ∧
        0 ≤ v ∧ v ≤ 2 ^ 8 - 1) ∧
      (∀ (s : List Nat) (v : Int), unsigned_unpack loopCounter s (0 : Nat) (8 : Nat) = some v →
        0 ≤ v ∧ v ≤ 2 ^ 8 - 1)) :=
  ⟨by decide, unsigned_unpack_in_range [0xFF] 0x00 0 8 (by decide)⟩

/-- C8 (the code departs from the claim): `signed_unpack` leaves the range
`[-2^(w-1), 2^(w-1) - 1]`.  On `[0x00, 0x00]`, offset 0, width 8 it returns
-256 (with `bit` read as the loop counter), below `-2^7 = -128`; on `[0xFF]`,
offset 0, width 8 it has no value. -/
theorem signed_unpack_outside_signed_range (bit : Nat → Int) :
    (validRequest [0x00, 0x00] 0 8 ∧
      signed_unpack loopCounter [0x00, 0x00] 0 8 = some (-256) ∧ (-256 : Int) < -2 ^ (8 - 1)) ∧
    (validRequest [0xFF] 0 8 ∧ signed_unpack bit [0xFF] 0 8 = none) :=
  ⟨⟨by decide, by decide, by decide⟩, ⟨by decide, rfl⟩⟩

/-- C9 (the code departs from the claim): on `[0x00, 0x01, 0x00]`, offset 0,
width 12 the output of `variable_unpack` is the single byte `[0xFF]`: output
byte `ceil(12/8) - 1 = 1` does not exist, and the last byte of the output has
its four low-order bits set. -/
theorem variable_unpack_padding_not_zero :
    0 + 12 ≤ bitLength [0x00, 0x01, 0x00] ∧ 12 % 8 ≠ 0 ∧
    variable_unpack [0x00, 0x01, 0x00] 0 12 = some [0xFF] ∧
    ¬ paddingZero [0xFF] 12 ∧ [0xFF].getLast? = some 0xFF ∧ 0xFF % 2 ^ (8 - 12 % 8) ≠ 0 := by
  refine ⟨by decide, by decide, by decide, ?_, by decide, by decide⟩
  simp [paddingZero, ceilDiv8]

/-- C10, as stated, fails: the functions receive no length and compute the
request from the bytes readable after the buffer.  For the buffer `[0x00]`
followed by two readable zero bytes, offset 0 and width 9 (`0 + 9 > 8`),
`unsigned_unpack` returns the number 0 and `variable_unpack` returns `[0x00]`;
for `[0x00]` followed by `0x00, 0x01`, offset 15 and width 1, `signed_unpack`
returns -1. -/
theorem out_of_range_request_not_rejected :
    (8 * [0x00].length < 0 + 9 ∧
      unsigned_unpack loopCounter ([0x00] ++ [0x00, 0x00]) 0 9 = some 0 ∧
      variable_unpack ([0x00] ++ [0x00, 0x00]) 0 9 = some [0x00]) ∧
    (8 * [0x00].length < 15 + 1 ∧
      signed_unpack loopCounter ([0x00] ++ [0x00, 0x01]) 15 1 = some (-1)) := by
  decide

/-- C10, amended: no range is checked.  For every buffer `b` followed by
readable bytes `rest`, offset `o ≥ 0` and width `w ≥ 1` with
`o + w > 8 * len(b)`, when `o + w + 8` bits are readable in all,
`unsigned_unpack` (for `w ≤ 31`, `bit` read as the loop counter) returns a
number in `[0, 2^w - 1]`, and `variable_unpack` returns a buffer when
`o % 8 ≠ 0` or `w % 8 = 0`. -/
theorem out_of_range_request_is_computed (b rest : List Nat) (o w : Nat) (hw : 1 ≤ w)
    (_hr : 8 * b.length < o + w) (hmem : o + w + 8 ≤ 8 * (b ++ rest).length) :
    (w ≤ 31 →
      ∃ v, unsigned_unpack loopCounter (b ++ rest) o w = some v ∧ 0 ≤ v ∧ v ≤ 2 ^ w - 1) ∧
    (o % 8 ≠ 0 ∨ w % 8 = 0 → ∃ out, variable_unpack (b ++ rest) o w = some out) := by
  constructor
  · intro hcap
    obtain ⟨v, hv1, hv2, hv3⟩ := unsigned_unpack_defined (b ++ rest) o w hcap hmem
    exact ⟨v, hv1, hv2, by omega⟩
  · intro halign
    obtain ⟨out, hout, -⟩ := variable_unpack_defined (b ++ rest) o w hw halign hmem
    exact ⟨out, hout⟩

/-- C10, amended, at the buffer `[0x00]` followed by `0x01, 0x01`, offset 3,
width 9: both functions return. -/
theorem out_of_range_request_is_computed_witness :
    1 ≤ 9 ∧ 8 * [0x00].length < 3 + 9 ∧ 3 + 9 + 8 ≤ 8 * ([0x00] ++ [0x01, 0x01]).length ∧
    (∃ v, unsigned_unpack loopCounter ([0x00] ++ [0x01, 0x01]) (3 : Nat) (9 : Nat) = some v ∧
      0 ≤ v ∧ v ≤ 2 ^ 9 - 1) ∧
    (∃ out, variable_unpack ([0x00] ++ [0x01, 0x01]) (3 : Nat) (9 : Nat) = some out) :=
  ⟨by decide, by decide, by decide,
   (out_of_range_request_is_computed [0x00] [0x01, 0x01] 3 9 (by decide) (by decide)
      (by decide)).1 (by decide),
   (out_of_range_request_is_computed [0x00] [0x01, 0x01] 3 9 (by decide) (by decide)
      (by decide)).2 (Or.inl (by decide))⟩

/-- C11, as stated, fails: no operation rejects a width.  With width 0
`unsigned_unpack` returns 0, `signed_unpack` returns -1 on `[0x00, 0x00]` and
`variable_unpack` returns an empty buffer; with width -3 `unsigned_unpack`
returns 0 and `variable_unpack` a one-byte buffer; with width 40, above the
capacity of `int`, `unsigned_unpack` returns 0 on six zero bytes. -/
theorem invalid_width_request_returns_value :
    unsigned_unpack loopCounter [0x00] 0 0 = some 0 ∧
    signed_unpack loopCounter [0x00, 0x00] 0 0 = some (-1) ∧
    variable_unpack [0x00] 0 0 = some [] ∧
    unsigned_unpack loopCounter [0x00] 0 (-3) = some 0 ∧
    variable_unpack [0x00] 3 (-3) = some [0x00] ∧
    unsigned_unpack loopCounter [0x00, 0x00, 0x00, 0x00, 0x00, 0x00] 0 40 = some 0 := by
  decide

/-- C11, amended: for every buffer, offset `o ≥ 0` and width `w ≤ 0` the loop is
not entered and no operation fails on the width: `unsigned_unpack` returns 0,
`signed_unpack` returns a number exactly when the byte it reads for its sign
flag is readable, and `variable_unpack` returns its zero-filled buffer of
`byte_size` bytes (no buffer when `byte_size` is negative). -/
theorem nonpositive_width_request (bit : Nat → Int) (s : List Nat) (o : Nat) (w : Int)
    (hw : w ≤ 0) :
    unsigned_unpack bit s o w = some 0 ∧
    ((signed_unpack bit s o w).isSome = (readByte s (signed_unpack_start o)).isSome) ∧
    variable_unpack s o w =
      (if variable_unpack_byte_size o w < 0 then none
       else some (List.replicate (variable_unpack_byte_size o w).toNat 0)) := by
  have hn : w.toNat = 0 := by omega
  refine ⟨?_, ?_, ?_⟩
  · unfold unsigned_unpack
    rw [hn]
    rfl
  · unfold signed_unpack signed_unpack_pos
    rw [hn, tmod8 _ (by omega), shl1_isSome _ (by omega) (by omega)]
    cases readByte s (signed_unpack_start o) <;> rfl
  · unfold variable_unpack
    rw [hn]
    rfl

/-- C11, amended, at buffer `[0x00, 0x00]`, offset 0, width 0. -/
theorem nonpositive_width_request_witness :
    (0 : Int) ≤ 0 ∧
    (unsigned_unpack loopCounter [0x00, 0x00] (0 : Nat) 0 = some 0 ∧
    ((signed_unpack loopCounter [0x00, 0x00] (0 : Nat) 0).isSome
      = (readByte [0x00, 0x00] (signed_unpack_start (0 : Nat))).isSome) ∧
    variable_unpack [0x00, 0x00] (0 : Nat) 0 =
      (if variable_unpack_byte_size (0 : Nat) 0 < 0 then none
       else some (List.replicate (variable_unpack_byte_size (0 : Nat) 0).toNat 0))) :=
  ⟨by decide, nonpositive_width_request loopCounter [0x00, 0x00] 0 0 (by decide)⟩

/-- C12 (the code departs from the claim): the index at which `unsigned_unpack`
and `variable_unpack` read `s` is not `(o + i) / 8`.  For every starting offset
`o ≥ 0` iteration 0 reads `s[o/8 + 1]`, and from offset 0 iteration 8 reads
`s[2]`, not `s[1]`; only `src_bit = 7 - (o + i) % 8` is as claimed. -/
theorem read_index_one_byte_ahead (o : Nat) :
    (unsigned_unpack_read_index (unsigned_unpack_init o) = (o : Int) / 8 + 1 ∧
      unsigned_unpack_src_bit (unsigned_unpack_init o) = 7 - (o : Int) % 8) ∧
    (∀ w : Int, variable_unpack_read_index (variable_unpack_init o w) = (o : Int) / 8 + 1 ∧
      variable_unpack_src_bit (variable_unpack_init o w) = 7 - (o : Int) % 8) ∧
    (unsigned_unpack_loop loopCounter [0xFF, 0x00, 0x00] 16 8 0 (unsigned_unpack_init 0)).map
      unsigned_unpack_read_index = some 2 ∧
    (variable_unpack_loop [0xFF, 0x00, 0x00] 8 0 (variable_unpack_init 0 16)).map
      variable_unpack_read_index = some 2 := by
  refine ⟨?_, ?_, by decide, by decide⟩
  · exact unsigned_unpack_read_index_eq _ (by simp [unsigned_unpack_init])
      (by simp only [unsigned_unpack_init]; exact unsigned_unpack_start_eq _ (by simp))
  · intro w
    exact variable_unpack_read_index_eq _ (by simp [variable_unpack_init])
      (by simp only [variable_unpack_init]; exact variable_unpack_start_eq _ (by simp))

/-- C13 (the code departs from the claim): on the valid request `[0xFF]`,
offset 0, width 8 the first read of each of the three functions is at index 1,
outside the one-byte buffer, so the out-of-bounds branch of the indexing is
taken and none of them has a value. -/
theorem reads_leave_the_buffer :
    validRequest [0xFF] 0 8 ∧
    (unsigned_unpack_read_index (unsigned_unpack_init 0) = 1 ∧
      variable_unpack_read_index (variable_unpack_init 0 8) = 1 ∧
      signed_unpack_start 0 = 1 ∧ ¬ ((1 : Int) < ([0xFF] : List Nat).length) ∧
      readByte [0xFF] 1 = none) ∧
    (unsigned_unpack loopCounter [0xFF] 0 8 = none ∧ signed_unpack loopCounter [0xFF] 0 8 = none ∧
      variable_unpack [0xFF] 0 8 = none) := by
  decide

/-- C14: for every byte value `x` and every `src_bit = k` in `0..7` the shift
`1 << k` is defined and the test `s[byte] & (1 << src_bit) > 0`, parsed as
`x & ((1 << k) > 0)`, has the value `x & 1 = x % 2`: it depends on the least
significant bit of `x` only, not on `k`; and it differs from the intended
`(x >> k) & 1` for some `x` and `k` (here `x = 1`, `k = 1`). -/
theorem precedence_test_is_lsb (x k : Nat) (hk : k ≤ 7) :
    shl1 k = some (2 ^ k) ∧ andGtZero x (2 ^ k) = x &&& 1 ∧ andGtZero x (2 ^ k) = x % 2 ∧
      (∃ x0 k0 : Nat, k0 ≤ 7 ∧ andGtZero x0 (2 ^ k0) ≠ bitOfByte x0 k0) := by
  have hpos : (0 : Int) < 2 ^ k := by positivity
  have h1 : andGtZero x (2 ^ k) = x &&& 1 := by
    unfold andGtZero
    rw [if_pos hpos]
  refine ⟨?_, h1, ?_, 1, 1, by decide, by decide⟩
  · rw [shl1_isSome k (by omega) (by omega)]
    simp
  · rw [h1, Nat.and_one_is_mod]

/-- C14 at `x = 0xB0`, `k = 5`. -/
theorem precedence_test_is_lsb_witness :
    5 ≤ 7 ∧ (shl1 (5 : Nat) = some (2 ^ 5) ∧ andGtZero 0xB0 (2 ^ 5) = 0xB0 &&& 1 ∧
      andGtZero 0xB0 (2 ^ 5) = 0xB0 % 2 ∧
      (∃ x0 k0 : Nat, k0 ≤ 7 ∧ andGtZero x0 (2 ^ k0) ≠ bitOfByte x0 k0)) :=
  ⟨by decide, precedence_test_is_lsb 0xB0 5 (by decide)⟩

/-- C15: for every offset `o ≥ 0` and width `w ≥ 1`, the `byte_size` of
`variable_unpack` equals `ceil(w/8)` exactly when `w % 8 = 0` and `o % 8 = 0`
hold together or fail together; it is one more when `w % 8 = 0` and
`o % 8 ≠ 0`, and one less when `w % 8 ≠ 0` and `o % 8 = 0`. -/
theorem byte_size_off_by_one (o w : Nat) (hw : 1 ≤ w) :
    (variable_unpack_byte_size o w = ceilDiv8 w ↔ (w % 8 = 0 ↔ o % 8 = 0)) ∧
    (w % 8 = 0 → o % 8 ≠ 0 → variable_unpack_byte_size o w = (ceilDiv8 w : Int) + 1) ∧
    (w % 8 ≠ 0 → o % 8 = 0 → variable_unpack_byte_size o w = (ceilDiv8 w : Int) - 1) := by
  have hsize : variable_unpack_byte_size o w
      = if (o : Int) % 8 = 0 then (w : Int) / 8 + 1 - 1 else (w : Int) / 8 + 1 := by
    unfold variable_unpack_byte_size
    simp only [tdiv8 (w : Int) (by omega), tmod8 (o : Int) (by omega)]
  have hceil : ((ceilDiv8 w : Nat) : Int) = ((w : Int) + 7) / 8 := by
    unfold ceilDiv8; push_cast; rfl
  rw [hsize, hceil]
  refine ⟨?_, ?_, ?_⟩
  · split <;> constructor <;> intro h <;> omega
  · intro h1 h2; rw [if_neg (by omega)]; omega
  · intro h1 h2; rw [if_pos (by omega)]; omega

/-- C15 at the two examples of the claim: `w = 8`, `o = 3` gives 2 and `w = 4`,
`o = 0` gives 0. -/
theorem byte_size_off_by_one_witness :
    (1 ≤ 8 ∧ variable_unpack_byte_size (3 : Nat) (8 : Nat) = (ceilDiv8 8 : Int) + 1 ∧
      variable_unpack_byte_size (3 : Nat) (8 : Nat) = 2) ∧
    (1 ≤ 4 ∧ variable_unpack_byte_size (0 : Nat) (4 : Nat) = (ceilDiv8 4 : Int) - 1 ∧
      variable_unpack_byte_size (0 : Nat) (4 : Nat) = 0) :=
  ⟨⟨by decide, (byte_size_off_by_one 3 8 (by decide)).2.1 (by decide) (by decide), by decide⟩,
   ⟨by decide, (byte_size_off_by_one 0 4 (by decide)).2.2 (by decide) (by decide), by decide⟩⟩

/-- C16: in `variable_unpack`, whenever the run reaches iteration `bit < w` (in
state `st`), the output index after `if(bit % 8 == 0)counter++;` is `bit / 8`
and the mask is `1 << (7 - bit % 8)`, for every buffer and every offset. -/
theorem variable_unpack_write_target (s : List Nat) (o w : Int) (bit : Nat) (st : VariableState)
    (_hbit : (bit : Int) < w)
    (hrun : variable_unpack_loop s bit 0 (variable_unpack_init o w) = some st) :
    variable_unpack_write_index bit st = (bit : Int) / 8 ∧
      variable_unpack_mask bit = some (2 ^ (7 - bit % 8)) := by
  have hc := variable_unpack_loop_counter s bit 0 (variable_unpack_init o w) st
    (by simp [variable_unpack_init]) hrun
  constructor
  · apply variable_unpack_write_index_eq
    rw [hc]; simp
  · unfold variable_unpack_mask
    rw [tmod8 _ (by omega), shl1_isSome _ (by omega) (by omega)]
    congr 2
    omega

/-- C16 at buffer `[0xB0, 0x01, 0x01]`, offset 3, width 12, iteration 9: the run
reaches it, the target index is 1 and the mask is `1 << 6`. -/
theorem variable_unpack_write_target_witness :
    ((9 : Nat) : Int) < 12 ∧
    variable_unpack_loop [0xB0, 0x01, 0x01] 9 0 (variable_unpack_init 3 12) =
      some { offset := 12, byte := 2, counter := 1, output := [0xFF, 0x80] } ∧
    (variable_unpack_write_index 9 { offset := 12, byte := 2, counter := 1, output := [0xFF, 0x80] }
        = ((9 : Nat) : Int) / 8 ∧
      variable_unpack_mask 9 = some (2 ^ (7 - 9 % 8))) :=
  ⟨by decide, by decide,
   variable_unpack_write_target [0xB0, 0x01, 0x01] 3 12 9 _ (by decide) (by decide)⟩

/-- C17 (the code departs from the claim): on `[0xB0, 0x01]`, offset 0, width 4
the allocated output has `byte_size = 0` bytes, iteration 0 reads `s[1] = 1`,
finds the test true and writes `output[0]`, outside the allocation: the
out-of-bounds branch of the update is taken. -/
theorem write_leaves_the_output :
    validRequest [0xB0, 0x01] 0 4 ∧
    variable_unpack_byte_size 0 4 = 0 ∧ (variable_unpack_init 0 4).output = [] ∧
    readByte [0xB0, 0x01] (variable_unpack_read_index (variable_unpack_init 0 4)) = some 1 ∧
    andGtZero 1 (2 ^ 7) ≠ 0 ∧
    variable_unpack_write_index 0 (variable_unpack_init 0 4) = 0 ∧
    variable_unpack_mask 0 = some 128 ∧
    orByte (variable_unpack_init 0 4).output 0 128 = none ∧
    variable_unpack_body [0xB0, 0x01] 0 (variable_unpack_init 0 4) = none ∧
    variable_unpack [0xB0, 0x01] 0 4 = none := by
  decide

/-- C18 (the code departs from the claim): the flag `pos` of `signed_unpack` is 0
(false) for every buffer and every offset `o ≥ 0` at which it is defined; on
`[0x00, 0x00]`, offset 0 the bit at the offset is 0 and `pos` is still 0. -/
theorem sign_flag_always_zero (s : List Nat) (o : Nat) :
    (signed_unpack_pos s o = none ∨ signed_unpack_pos s o = some 0) ∧
    (bitAt [0x00, 0x00] 0 = some 0 ∧ signed_unpack_pos [0x00, 0x00] 0 = some 0) := by
  refine ⟨?_, by decide, by decide⟩
  cases h : signed_unpack_pos s o with
  | none => exact Or.inl rfl
  | some pos => rw [signed_unpack_pos_zero s o pos h]; exact Or.inr rfl

/-- C19: for every width `1 ≤ w ≤ 31` and every `u` in `[2^(w-1), 2^w)`, with
`pos` false and `number = 2^w - 1 - u` the closing step returns
`-number - 1 = u - 2^w`; `number` is in `[0, 2^(w-1))` and the result in
`[-2^(w-1), -1]`, both within the range of `int`. -/
theorem closing_step_sound (w : Nat) (u : Int) (hw : 1 ≤ w) (hcap : w ≤ 31)
    (hlo : 2 ^ (w - 1) ≤ u) (hhi : u < 2 ^ w) :
    signed_unpack_return 0 (2 ^ w - 1 - u) = u - 2 ^ w ∧
      (0 ≤ (2 : Int) ^ w - 1 - u ∧ (2 : Int) ^ w - 1 - u < 2 ^ (w - 1)) ∧
      (-(2 : Int) ^ (w - 1) ≤ u - 2 ^ w ∧ u - 2 ^ w ≤ -1) ∧
      (2 : Int) ^ (w - 1) ≤ 2 ^ 30 := by
  have hpow : (2 : Int) ^ w = 2 * 2 ^ (w - 1) := by
    rw [← pow_succ']; congr 1; omega
  have hcap30 : (2 : Int) ^ (w - 1) ≤ 2 ^ 30 :=
    pow_le_pow_right₀ (by norm_num) (by omega)
  refine ⟨?_, ⟨by omega, by omega⟩, ⟨by omega, by omega⟩, hcap30⟩
  unfold signed_unpack_return
  simp
  ring

/-- C19 at `w = 8`, `u = 0x80`: the result is -128. -/
theorem closing_step_sound_witness :
    1 ≤ 8 ∧ 8 ≤ 31 ∧ (2 : Int) ^ (8 - 1) ≤ 0x80 ∧ (0x80 : Int) < 2 ^ 8 ∧
    (signed_unpack_return 0 (2 ^ 8 - 1 - 0x80) = 0x80 - 2 ^ 8 ∧
      (0 ≤ (2 : Int) ^ 8 - 1 - 0x80 ∧ (2 : Int) ^ 8 - 1 - 0x80 < 2 ^ (8 - 1)) ∧
      (-(2 : Int) ^ (8 - 1) ≤ 0x80 - 2 ^ 8 ∧ (0x80 : Int) - 2 ^ 8 ≤ -1) ∧
      (2 : Int) ^ (8 - 1) ≤ 2 ^ 30) :=
  ⟨by decide, by decide, by decide, by decide,
   closing_step_sound 8 0x80 (by decide) (by decide) (by decide) (by decide)⟩

/-- C20: for every offset `o ≥ 0` the byte index that `unsigned_unpack` and
`variable_unpack` compute before the loop is `ceil(o / 8)`, the least `c` with
`o ≤ 8 * c`. -/
theorem start_byte_is_ceil (o : Nat) :
    unsigned_unpack_start o = ceilDiv8 o ∧ variable_unpack_start o = ceilDiv8 o ∧
      o ≤ 8 * ceilDiv8 o ∧ 8 * ceilDiv8 o < o + 8 := by
  refine ⟨?_, ?_, ?_, ?_⟩
  · rw [unsigned_unpack_start_eq _ (by omega)]; unfold ceilDiv8; push_cast; rfl
  · rw [variable_unpack_start_eq _ (by omega)]; unfold ceilDiv8; push_cast; rfl
  · unfold ceilDiv8; omega
  · unfold ceilDiv8; omega

end RubyBits
